import Mathlib

set_option maxHeartbeats 1000000

attribute [local semireducible] Rat.add Rat.mul Rat.inv Rat.sub Rat.ofScientific

deriving instance DecidableEq for Except

namespace SelClass

/-! ## Embedding of `src/sac.py` (`SelectiveAccuracyConstraint`)

Confidences and accuracies are modelled over `ℚ`; torch/numpy arrays become
lists; the torchmetrics list-state becomes explicit state passing; calls that
can raise (`np.concatenate` on an empty list of arrays, fancy indexing with an
out-of-range index) are modelled with `Except`. -/

/-- State of a `SelectiveAccuracyConstraint` instance (src/sac.py, lines 10-14):
the configured risk together with the two torchmetrics list-states `conf` and
`iscorrect`, holding one appended array per `update` call. -/
structure SacState where
  risk : ℚ
  conf : List (List ℚ)
  iscorrect : List (List Bool)
  deriving DecidableEq

/-- Errors the reference code can raise inside `compute` (src/sac.py):
`invalidState` models `np.concatenate` raising on an empty list of arrays
(the spec's InvalidState for compute-before-update); `indexError` models numpy
fancy indexing `iscorrect[sortidx]` with an index past the end. -/
inductive SacError where
  | invalidState
  | indexError
  deriving DecidableEq

/-- `__init__(risk)` (src/sac.py line 10-14): empty accumulators. -/
def init (risk : ℚ) : SacState := ⟨risk, [], []⟩

/-- `update(conf, iscorrect)` (src/sac.py lines 16-18): append one array to
each list-state.  The source performs no validation of any kind. -/
def update (s : SacState) (conf : List ℚ) (iscorrect : List Bool) : SacState :=
  { s with conf := s.conf ++ [conf], iscorrect := s.iscorrect ++ [iscorrect] }

/-- Ordering relation on indices of `l` realising `np.argsort` (ascending by
value, ties broken by position, which makes the model deterministic). -/
def argRel (l : List ℚ) (i j : ℕ) : Prop :=
  l.getD i 0 < l.getD j 0 ∨ (l.getD i 0 = l.getD j 0 ∧ i ≤ j)

instance argRelDecidable (l : List ℚ) : DecidableRel (argRel l) := fun i j => by
  unfold argRel; infer_instance

instance argRelTotal (l : List ℚ) : IsTotal ℕ (argRel l) where
  total i j := by
    rcases lt_trichotomy (l.getD i 0) (l.getD j 0) with h | h | h
    · exact Or.inl (Or.inl h)
    · rcases le_total i j with hij | hij
      · exact Or.inl (Or.inr ⟨h, hij⟩)
      · exact Or.inr (Or.inr ⟨h.symm, hij⟩)
    · exact Or.inr (Or.inl h)

instance argRelTrans (l : List ℚ) : IsTrans ℕ (argRel l) where
  trans i j k hij hjk := by
    rcases hij with h1 | ⟨h1, hi⟩
    · rcases hjk with h2 | ⟨h2, _⟩
      · exact Or.inl (h1.trans h2)
      · exact Or.inl (h2 ▸ h1)
    · rcases hjk with h2 | ⟨h2, hj⟩
      · exact Or.inl (h1 ▸ h2)
      · exact Or.inr ⟨h1.trans h2, hi.trans hj⟩

/-- `conf.argsort()` (src/sac.py line 23): the permutation of `range n`
arranging the values of `l` in ascending order. -/
def argsortQ (l : List ℚ) : List ℕ :=
  List.insertionSort (argRel l) (List.range l.length)

/-- `np.cumsum` (src/sac.py line 25): running partial sums. -/
def cumsumQ (l : List ℚ) : List ℚ :=
  (l.scanl (· + ·) 0).drop 1

/-- Lines 25-27 of src/sac.py applied to an (already sorted) correctness
sequence: `np.cumsum(iscorrect) / np.arange(1, n+1)`, the accuracy of each
prefix of length `k = 1..n`. -/
def prefixAccs (iscS : List Bool) : List ℚ :=
  (cumsumQ (iscS.map fun b => if b then (1 : ℚ) else 0)).enum.map fun p =>
    p.2 / ((p.1 : ℚ) + 1)

/-- `np.argmax` (src/sac.py line 33): index of the first occurrence of the
maximum value (`0` on an empty array, where numpy would raise; the source only
reaches this in the guarded non-empty branch). -/
def npArgmax : List ℚ → ℕ
  | [] => 0
  | [_] => 0
  | x :: y :: xs =>
    if x < (y :: xs).getD (npArgmax (y :: xs)) 0 then npArgmax (y :: xs) + 1 else 0

/-- Lines 29-35 of src/sac.py, operating on the correctness sequence after the
descending-confidence reordering: return `0` when no prefix accuracy reaches
`risk`, otherwise flip the prefix-accuracy sequence, take the argmax of the
flipped `>= risk` indicator, and return `numcoverage / n`. -/
def coreCompute (risk : ℚ) (iscS : List Bool) : Except SacError ℚ :=
  let accs := prefixAccs iscS
  if accs.countP (fun a => decide (risk ≤ a)) < 1 then
    Except.ok 0
  else
    let rmaxidx := npArgmax (accs.reverse.map fun a => if risk ≤ a then (1 : ℚ) else 0)
    let numcoverage := iscS.length - (rmaxidx + 1) + 1
    Except.ok ((numcoverage : ℚ) / (iscS.length : ℚ))

/-- `np.concatenate(self.conf)` (src/sac.py line 21). -/
def joinedConf (s : SacState) : List ℚ := s.conf.flatten

/-- `np.concatenate(self.iscorrect)` (src/sac.py line 22). -/
def joinedIsc (s : SacState) : List Bool := s.iscorrect.flatten

/-- `sortidx = conf.argsort()[::-1]` (src/sac.py line 23). -/
def sortidx (s : SacState) : List ℕ := (argsortQ (joinedConf s)).reverse

/-- `iscorrect = iscorrect[sortidx]` (src/sac.py line 24): the correctness
flags in descending-confidence order. -/
def sortedIsc (s : SacState) : List Bool :=
  (sortidx s).map fun i => (joinedIsc s).getD i false

/-- The confidences in the order chosen by the code's sort (the array
`conf[sortidx]`, which the source never materialises but whose order drives
line 24). -/
def sortedConf (s : SacState) : List ℚ :=
  (sortidx s).map fun i => (joinedConf s).getD i 0

/-- The prefix-accuracy array `cumcumisc` of src/sac.py lines 25-27. -/
def sacAccs (s : SacState) : List ℚ := prefixAccs (sortedIsc s)

/-- `compute()` (src/sac.py lines 20-35).  `np.concatenate` raises when a
list-state holds no arrays (zero `update` calls; the spec's InvalidState);
`iscorrect[sortidx]` raises when some sort index falls past the end of
`iscorrect`, which happens exactly when fewer correctness flags than
confidences were accumulated. -/
def compute (s : SacState) : Except SacError ℚ :=
  if s.conf = [] then Except.error SacError.invalidState
  else if s.iscorrect = [] then Except.error SacError.invalidState
  else if (joinedIsc s).length < (joinedConf s).length then Except.error SacError.indexError
  else coreCompute s.risk (sortedIsc s)

/-- Direct formulation taken from the spec's words: scan all prefixes
`k = 1..N` and keep the maximum `k` whose prefix accuracy meets the risk bound
(`0` when none does). -/
def specMaxValidK (accs : List ℚ) (risk : ℚ) : ℕ :=
  (List.range accs.length).foldl
    (fun m i => if risk ≤ accs.getD i 0 then max m (i + 1) else m) 0

/-- The (confidence, correctness) records of the accumulator in the code's
sort order: `conf[sortidx]` paired with `iscorrect[sortidx]`. -/
def sortedPairs (s : SacState) : List (ℚ × Bool) :=
  (sortidx s).map fun i => ((joinedConf s).getD i 0, (joinedIsc s).getD i false)

/-! ## Embedding of `bisection_method` (src/train.py lines 690-707)

Scores are modelled over `ℚ`, torch tensors as lists; the `results` list the
Python mutates becomes the returned list; the raising operations
(`np.percentile` of an empty array, boolean-mask indexing with a mask of the
wrong shape, division by a zero `nSelected`) are modelled with `Except`. -/

/-- Errors the calibrator loop can raise: `np.percentile` on an empty array,
`correct[mask]` with a mask whose shape differs from `correct`, and the
`nCorrectSelected/nSelected` division when nothing is selected. -/
inductive CalibError where
  | emptyPercentile
  | shapeMismatch
  | divisionByZero
  deriving DecidableEq

/-- The ascending sort `np.percentile` performs internally on its input. -/
def sortedAsc (l : List ℚ) : List ℚ :=
  List.insertionSort (· ≤ ·) l

/-- The fractional rank `q/100 * (n-1)` of `np.percentile` with the default
linear-interpolation semantics. -/
def pctPos (l : List ℚ) (q : ℚ) : ℚ :=
  q / 100 * (((sortedAsc l).length : ℚ) - 1)

/-- The lower order-statistic index `⌊pos⌋` used by the interpolation. -/
def pctIdx (l : List ℚ) (q : ℚ) : ℕ :=
  (⌊pctPos l q⌋).toNat

/-- `np.percentile(values, q)` with numpy's default linear-interpolation
semantics: sort ascending, let `pos = q/100 * (n-1)` and `i = ⌊pos⌋`, and
interpolate between the order statistics at positions `i` and `i+1`.  (The
out-of-range neighbour defaults to the value at `i`; that value is multiplied
by an interpolation weight of zero in every case where numpy is defined, i.e.
for `0 ≤ q ≤ 100` on a non-empty input.)  numpy raises on an empty input; that
guard lives at the call site in `calibStep`. -/
def percentileQ (l : List ℚ) (q : ℚ) : ℚ :=
  let s := sortedAsc l
  let pos := pctPos l q
  let i := pctIdx l q
  s.getD i 0 + (pos - (i : ℚ)) * (s.getD (i + 1) (s.getD i 0) - s.getD i 0)

/-- `calc_threshold(val_tensor, cov)` (src/train.py lines 692-694):
`np.percentile(values, 100 - cov*100)`, where `cov` is the requested coverage
already divided by 100. -/
def calc_threshold (val : List ℚ) (cov : ℚ) : ℚ :=
  percentileQ val (100 - cov * 100)

/-- One iteration of the loop in `bisection_method` (src/train.py lines
697-707) at one requested coverage (a number in `(0, 100]`): threshold the
negated scores by the percentile, select by `neg_score >= threshold`, count,
and emit `(nSelected/nData, nCorrectSelected/nSelected)`. -/
def calibStep (neg_score : List ℚ) (correct : List Bool) (coverage : ℚ) :
    Except CalibError (ℚ × ℚ) :=
  if neg_score = [] then Except.error CalibError.emptyPercentile
  else
    let threshold := calc_threshold neg_score (coverage / 100)
    let mask := neg_score.map fun x => decide (threshold ≤ x)
    let nData := correct.length
    let nSelected := mask.count true
    if correct.length ≠ mask.length then Except.error CalibError.shapeMismatch
    else
      let isCorrect := (correct.zip mask).filterMap fun p => if p.2 then some p.1 else none
      let nCorrectSelected := isCorrect.count true
      if nSelected = 0 then Except.error CalibError.divisionByZero
      else Except.ok ((nSelected : ℚ) / (nData : ℚ), (nCorrectSelected : ℚ) / (nSelected : ℚ))

/-- The loop of `bisection_method` over the requested coverages, collecting
the emitted pairs in request order (the Python appends to `results`). -/
def bisectionLoop (neg_score : List ℚ) (correct : List Bool) :
    List ℚ → Except CalibError (List (ℚ × ℚ))
  | [] => Except.ok []
  | c :: cs =>
    match calibStep neg_score correct c with
    | Except.error e => Except.error e
    | Except.ok p =>
      match bisectionLoop neg_score correct cs with
      | Except.error e => Except.error e
      | Except.ok ps => Except.ok (p :: ps)

/-- `bisection_method(score, correct, results)` (src/train.py lines 690-707):
negate the scores once, then run the per-coverage loop over the global
`expected_coverage` list (passed here explicitly). -/
def bisection_method (expected_coverage : List ℚ) (score : List ℚ)
    (correct : List Bool) : Except CalibError (List (ℚ × ℚ)) :=
  bisectionLoop (score.map fun x => -x) correct expected_coverage

/-- The selection mask `neg_score >= threshold` of the calibrator at a given
coverage (src/train.py line 699), as a function of the raw scores. -/
def selMask (score : List ℚ) (coverage : ℚ) : List Bool :=
  (score.map fun x => -x).map fun x =>
    decide (calc_threshold (score.map fun x => -x) (coverage / 100) ≤ x)

/-- Modelled from the spec (§4.2, operations 1-6), for comparison with the
source's `bisection_method`: negate the scores, take the linear-interpolation
percentile of the negated scores at rank `100 - c` as the threshold, select
the mask `negated_score >= threshold`, and emit `(nSelected / N, accuracy)`
for each requested coverage in request order. -/
def specCalibrate (scores : List ℚ) (correct : List Bool) (coverages : List ℚ) :
    List (ℚ × ℚ) :=
  coverages.map fun c =>
    let negated := scores.map fun x => -x
    let threshold := percentileQ negated (100 - c)
    let mask := negated.map fun x => decide (threshold ≤ x)
    let nSelected := mask.count true
    ((nSelected : ℚ) / (scores.length : ℚ),
      (((correct.zip mask).filterMap fun p => if p.2 then some p.1 else none).count true : ℚ) /
        (nSelected : ℚ))

example :
    compute (update (init 1) [9/10, 4/5, 7/10, 3/10] [true, true, false, true]) =
      Except.ok (1/2) := by decide

example : compute (init 1) = Except.error SacError.invalidState := by decide

example : specMaxValidK [1, 1, 2/3, 3/4] 1 = 2 := by decide

/-! ### Length bookkeeping -/

lemma length_cumsumQ (l : List ℚ) : (cumsumQ l).length = l.length := by
  simp [cumsumQ, List.length_scanl]

lemma length_prefixAccs (l : List Bool) : (prefixAccs l).length = l.length := by
  simp [prefixAccs, List.enum_length, length_cumsumQ]

lemma length_argsortQ (l : List ℚ) : (argsortQ l).length = l.length := by
  simp [argsortQ]

lemma length_sortidx (s : SacState) : (sortidx s).length = (joinedConf s).length := by
  simp [sortidx, length_argsortQ]

lemma length_sortedIsc (s : SacState) : (sortedIsc s).length = (joinedConf s).length := by
  simp [sortedIsc, length_sortidx]

lemma length_sacAccs (s : SacState) : (sacAccs s).length = (joinedConf s).length := by
  simp [sacAccs, length_prefixAccs, length_sortedIsc]

/-! ### `np.argmax` on a 0/1 indicator array finds the first `1` -/

lemma indicator_getD_le_one (bs : List Bool) (j : ℕ) :
    (bs.map fun b => if b then (1 : ℚ) else 0).getD j 0 ≤ 1 := by
  induction bs generalizing j with
  | nil => simp
  | cons b bs ih =>
    cases j with
    | zero => cases b <;> simp
    | succ j => simpa using ih j

lemma indicator_getD_of_lt (bs : List Bool) (j : ℕ) (h : j < bs.length) :
    (bs.map fun b => if b then (1 : ℚ) else 0).getD j 0 =
      if bs.getD j false then (1 : ℚ) else 0 := by
  induction bs generalizing j with
  | nil => simp at h
  | cons b bs ih =>
    cases j with
    | zero => simp
    | succ j => simpa using ih j (by simpa using h)

lemma findIdx_true_of_mem (bs : List Bool) (h : true ∈ bs) :
    bs.findIdx id < bs.length ∧ bs.getD (bs.findIdx id) false = true := by
  induction bs with
  | nil => simp at h
  | cons b bs ih =>
    cases b with
    | true => simp [List.findIdx_cons]
    | false =>
      have h' : true ∈ bs := by simpa using h
      obtain ⟨h1, h2⟩ := ih h'
      constructor
      · simpa [List.findIdx_cons] using Nat.succ_lt_succ h1
      · simpa [List.findIdx_cons] using h2

lemma npArgmax_indicator :
    ∀ (bs : List Bool), true ∈ bs →
      npArgmax (bs.map fun b => if b then (1 : ℚ) else 0) = bs.findIdx id
  | [], h => by simp at h
  | [b], h => by
    have hb : b = true := by simpa using h
    subst hb
    simp [npArgmax, List.findIdx_cons]
  | b :: b' :: bs', h => by
    have ih := npArgmax_indicator (b' :: bs')
    cases b with
    | true =>
      have hle : ((b' :: bs').map fun x => if x then (1 : ℚ) else 0).getD
          (npArgmax ((b' :: bs').map fun x => if x then (1 : ℚ) else 0)) 0 ≤ 1 :=
        indicator_getD_le_one _ _
      simp only [List.map_cons, if_true] at hle ⊢
      rw [npArgmax, if_neg (not_lt.mpr hle)]
      simp [List.findIdx_cons]
    | false =>
      have h' : true ∈ b' :: bs' := by simpa using h
      have ihv := ih h'
      obtain ⟨hlt, hget⟩ := findIdx_true_of_mem (b' :: bs') h'
      have hg : ((b' :: bs').map fun x => if x then (1 : ℚ) else 0).getD
          ((b' :: bs').findIdx id) 0 = 1 := by
        rw [indicator_getD_of_lt _ _ hlt, hget]
        simp
      simp only [List.map_cons, if_false] at ihv hg ⊢
      rw [npArgmax, ihv, hg, if_pos (by norm_num)]
      simp [List.findIdx_cons]

/-! ### The spec's direct largest-`k` scan -/

lemma foldl_maxstep_le (accs : List ℚ) (risk : ℚ) (B : ℕ) :
    ∀ (l : List ℕ) (m : ℕ), (∀ i ∈ l, i + 1 ≤ B) → m ≤ B →
      l.foldl (fun m i => if risk ≤ accs.getD i 0 then max m (i + 1) else m) m ≤ B
  | [], m, _, hm => by simpa
  | a :: l, m, hB, hm => by
    rw [List.foldl_cons]
    refine foldl_maxstep_le accs risk B l _
      (fun i hi => hB i (List.mem_cons_of_mem _ hi)) ?_
    show (if risk ≤ accs.getD a 0 then max m (a + 1) else m) ≤ B
    by_cases hc : risk ≤ accs.getD a 0
    · rw [if_pos hc]
      exact max_le hm (hB a (List.mem_cons_self _ _))
    · rw [if_neg hc]
      exact hm

lemma specMaxValidK_le_length (accs : List ℚ) (risk : ℚ) :
    specMaxValidK accs risk ≤ accs.length := by
  refine foldl_maxstep_le accs risk accs.length (List.range accs.length) 0 ?_ (Nat.zero_le _)
  intro i hi
  exact List.mem_range.mp hi

lemma specMaxValidK_append (l : List ℚ) (a risk : ℚ) :
    specMaxValidK (l ++ [a]) risk =
      if risk ≤ a then l.length + 1 else specMaxValidK l risk := by
  unfold specMaxValidK
  have hlen : (l ++ [a]).length = l.length + 1 := by simp
  rw [hlen, List.range_succ, List.foldl_append]
  have hinner : ∀ (m : ℕ), (List.range l.length).foldl
      (fun m i => if risk ≤ (l ++ [a]).getD i 0 then max m (i + 1) else m) m =
      (List.range l.length).foldl
      (fun m i => if risk ≤ l.getD i 0 then max m (i + 1) else m) m := by
    intro m
    refine List.foldl_ext _ _ m ?_
    intro b i hi
    rw [List.getD_append _ _ _ _ (List.mem_range.mp hi)]
  rw [hinner]
  have hgetD : (l ++ [a]).getD l.length 0 = a := by
    rw [List.getD_append_right _ _ _ _ (le_refl _)]
    simp
  rw [List.foldl_cons, List.foldl_nil, hgetD]
  by_cases hc : risk ≤ a
  · simp only [hc, if_true]
    exact max_eq_right
      (le_trans (specMaxValidK_le_length l risk) (Nat.le_succ _))
  · simp [hc]

lemma specMaxValidK_add_findIdx (risk : ℚ) (accs : List ℚ)
    (h : ∃ a ∈ accs, risk ≤ a) :
    specMaxValidK accs risk +
      accs.reverse.findIdx (fun a => decide (risk ≤ a)) = accs.length := by
  induction accs using List.reverseRecOn with
  | nil => simp at h
  | append_singleton l a ih =>
    rw [specMaxValidK_append, List.reverse_append]
    simp only [List.reverse_cons, List.reverse_nil, List.nil_append, List.singleton_append]
    by_cases hc : risk ≤ a
    · rw [if_pos hc, List.findIdx_cons]
      have hd : decide (risk ≤ a) = true := by simp [hc]
      rw [hd]
      simp
    · rw [if_neg hc, List.findIdx_cons]
      have h' : ∃ x ∈ l, risk ≤ x := by
        rcases h with ⟨x, hx, hrx⟩
        rcases List.mem_append.mp hx with hxl | hxa
        · exact ⟨x, hxl, hrx⟩
        · exact absurd hrx (by simpa [List.mem_singleton.mp hxa] using hc)
      have := ih h'
      have hd : decide (risk ≤ a) = false := by simp [hc]
      rw [hd]
      simp only [Bool.cond_false, List.length_append, List.length_singleton]
      omega

lemma specMaxValidK_isMax (risk : ℚ) (accs : List ℚ)
    (h : ∃ a ∈ accs, risk ≤ a) :
    1 ≤ specMaxValidK accs risk ∧
    risk ≤ accs.getD (specMaxValidK accs risk - 1) 0 ∧
    ∀ j, specMaxValidK accs risk ≤ j → j < accs.length → accs.getD j 0 < risk := by
  induction accs using List.reverseRecOn with
  | nil => simp at h
  | append_singleton l a ih =>
    rw [specMaxValidK_append]
    by_cases hc : risk ≤ a
    · rw [if_pos hc]
      refine ⟨Nat.succ_le_succ (Nat.zero_le _), ?_, ?_⟩
      · have : (l ++ [a]).getD (l.length + 1 - 1) 0 = a := by
          rw [Nat.add_sub_cancel, List.getD_append_right _ _ _ _ (le_refl _)]
          simp
        rw [this]
        exact hc
      · intro j hj hj'
        simp only [List.length_append, List.length_singleton] at hj'
        omega
    · rw [if_neg hc]
      have h' : ∃ x ∈ l, risk ≤ x := by
        rcases h with ⟨x, hx, hrx⟩
        rcases List.mem_append.mp hx with hxl | hxa
        · exact ⟨x, hxl, hrx⟩
        · exact absurd hrx (by simpa [List.mem_singleton.mp hxa] using hc)
      obtain ⟨ih1, ih2, ih3⟩ := ih h'
      have hlpos : 0 < l.length := by
        rcases h' with ⟨x, hx, _⟩
        exact List.length_pos.mpr (List.ne_nil_of_mem hx)
      have hKle : specMaxValidK l risk ≤ l.length := specMaxValidK_le_length l risk
      refine ⟨ih1, ?_, ?_⟩
      · rw [List.getD_append _ _ _ _ (by omega)]
        exact ih2
      · intro j hj hj'
        simp only [List.length_append, List.length_singleton] at hj'
        by_cases hjl : j < l.length
        · rw [List.getD_append _ _ _ _ hjl]
          exact ih3 j hj hjl
        · have hje : j = l.length := by omega
          subst hje
          rw [List.getD_append_right _ _ _ _ (le_refl _)]
          simpa using lt_of_not_le hc

/-! ### Evaluating `compute` through the reversed-argmax path -/

lemma findIdx_map_eq {α β : Type*} (f : α → β) (p : β → Bool) :
    ∀ (l : List α), (l.map f).findIdx p = l.findIdx (fun a => p (f a))
  | [] => rfl
  | a :: l => by
    simp only [List.map_cons, List.findIdx_cons, findIdx_map_eq f p l]

lemma coreCompute_of_exists (risk : ℚ) (iscS : List Bool)
    (h : ∃ a ∈ prefixAccs iscS, risk ≤ a) :
    coreCompute risk iscS =
      Except.ok ((specMaxValidK (prefixAccs iscS) risk : ℚ) / (iscS.length : ℚ)) := by
  have hcpos : 0 < (prefixAccs iscS).countP (fun a => decide (risk ≤ a)) := by
    rw [List.countP_pos_iff]
    rcases h with ⟨a, ha, hra⟩
    exact ⟨a, ha, by simpa using hra⟩
  have hmem : true ∈ (prefixAccs iscS).reverse.map (fun a => decide (risk ≤ a)) := by
    rcases h with ⟨a, ha, hra⟩
    exact List.mem_map.mpr ⟨a, List.mem_reverse.mpr ha, by simpa using hra⟩
  have hind : (prefixAccs iscS).reverse.map (fun a => if risk ≤ a then (1 : ℚ) else 0) =
      ((prefixAccs iscS).reverse.map fun a => decide (risk ≤ a)).map
        fun b => if b then (1 : ℚ) else 0 := by
    rw [List.map_map]
    congr 1
    funext a
    by_cases hra : risk ≤ a <;> simp [hra]
  have hargmax : npArgmax ((prefixAccs iscS).reverse.map fun a => if risk ≤ a then (1 : ℚ) else 0) =
      (prefixAccs iscS).reverse.findIdx (fun a => decide (risk ≤ a)) := by
    rw [hind, npArgmax_indicator _ hmem, findIdx_map_eq]
    rfl
  have hKf := specMaxValidK_add_findIdx risk (prefixAccs iscS) h
  have hK1 := (specMaxValidK_isMax risk (prefixAccs iscS) h).1
  have hlacc : (prefixAccs iscS).length = iscS.length := length_prefixAccs iscS
  simp only [coreCompute]
  rw [if_neg (by omega), hargmax]
  have hnum : iscS.length -
      ((prefixAccs iscS).reverse.findIdx (fun a => decide (risk ≤ a)) + 1) + 1 =
      specMaxValidK (prefixAccs iscS) risk := by
    omega
  rw [hnum]

lemma compute_eq_core (s : SacState) (h1 : s.conf ≠ []) (h2 : s.iscorrect ≠ [])
    (h3 : ¬ (joinedIsc s).length < (joinedConf s).length) :
    compute s = coreCompute s.risk (sortedIsc s) := by
  simp [compute, h1, h2, h3]

lemma conf_ne_nil (s : SacState) (h : 0 < (joinedConf s).length) : s.conf ≠ [] := by
  intro hc
  simp [joinedConf, hc] at h

lemma isc_ne_nil (s : SacState) (h : 0 < (joinedIsc s).length) : s.iscorrect ≠ [] := by
  intro hc
  simp [joinedIsc, hc] at h

/-! ### Claim theorems for the streaming metric (C2, C3, C5, C9, C10) -/

/-- C2: the `__main__` example of src/sac.py — risk `1`, confidences
`[0.9, 0.8, 0.7, 0.3]`, correctness `[T, T, F, T]`, fed by a single `update` —
computes exactly `1/2`: the largest prefix of the descending-confidence
ordering whose accuracy reaches the risk is `k = 2` out of `N = 4`. -/
theorem sac_main_example_half :
    compute (update (init 1) [9/10, 4/5, 7/10, 3/10] [true, true, false, true]) =
      Except.ok (1/2) := by decide

/-- C3: on every accumulated input on which some prefix meets the risk bound,
the reversed-argmax computation of src/sac.py lines 29-35 (flip, first-index
argmax of the `>= risk` indicator, `numcoverage = N - (rmaxidx+1) + 1`) returns
exactly the value of the direct formulation: the maximum `k` in `1..N` with
prefix accuracy `>= risk`, divided by `N`. -/
theorem sac_reversed_argmax_eq_direct_scan (s : SacState)
    (hlen : (joinedIsc s).length = (joinedConf s).length)
    (h : ∃ a ∈ sacAccs s, s.risk ≤ a) :
    compute s = Except.ok
      ((specMaxValidK (sacAccs s) s.risk : ℚ) / ((sortedIsc s).length : ℚ)) := by
  have hN : 0 < (joinedConf s).length := by
    rcases h with ⟨a, ha, _⟩
    have h1 : 0 < (sacAccs s).length := List.length_pos.mpr (List.ne_nil_of_mem ha)
    have h2 := length_sacAccs s
    omega
  rw [compute_eq_core s (conf_ne_nil s hN) (isc_ne_nil s (by omega)) (by omega)]
  exact coreCompute_of_exists s.risk (sortedIsc s) h

/-- Witness for C3: confidences `[3/4, 1/4]`, correctness `[T, F]`, risk `1/2`;
both prefixes meet the bound, so the result is `2/2 = 1`. -/
theorem sac_reversed_argmax_eq_direct_scan_witness :
    compute (update (init (1/2)) [3/4, 1/4] [true, false]) = Except.ok
      ((specMaxValidK (sacAccs (update (init (1/2)) [3/4, 1/4] [true, false])) (1/2) : ℚ) /
        ((sortedIsc (update (init (1/2)) [3/4, 1/4] [true, false])).length : ℚ)) :=
  sac_reversed_argmax_eq_direct_scan _ (by decide) (by decide)

/-- C5: on a non-empty accumulated input on which no prefix (including `k = 1`)
meets the risk bound, `compute` returns `0` as a normal value — it raises no
error, and in particular this sentinel is distinct from the InvalidState error
of an empty accumulator. -/
theorem sac_compute_zero_sentinel (s : SacState)
    (hr0 : 0 < s.risk) (hr1 : s.risk ≤ 1)
    (hN : 0 < (joinedConf s).length)
    (hupd : s.conf ≠ []) (hupd2 : s.iscorrect ≠ [])
    (hlen : (joinedIsc s).length = (joinedConf s).length)
    (h : ∀ a ∈ sacAccs s, a < s.risk) :
    compute s = Except.ok 0 ∧ ∀ e : SacError, compute s ≠ Except.error e := by
  have hc := compute_eq_core s hupd hupd2 (by omega)
  have hcount : (prefixAccs (sortedIsc s)).countP (fun a => decide (s.risk ≤ a)) = 0 := by
    rw [List.countP_eq_zero]
    intro a ha
    simpa using not_le.mpr (h a ha)
  have hok : compute s = Except.ok 0 := by
    rw [hc]
    simp only [coreCompute]
    rw [if_pos (by omega)]
  exact ⟨hok, fun e he => by rw [hok] at he; exact Except.noConfusion he⟩

/-- Witness for C5: a single always-wrong record with risk `1`; no prefix
accuracy reaches `1`, and `compute` returns the sentinel `0`. -/
theorem sac_compute_zero_sentinel_witness :
    compute (update (init 1) [1/2] [false]) = Except.ok 0 ∧
    ∀ e : SacError, compute (update (init 1) [1/2] [false]) ≠ Except.error e :=
  sac_compute_zero_sentinel _ (by decide) (by decide) (by decide) (by decide)
    (by decide) (by decide) (by decide)

/-- C9: `compute` on a metric that received zero `update` calls fails with the
InvalidState error (in the source, `np.concatenate` raises on the empty
list-state) and returns no numeric value. -/
theorem sac_compute_no_update_invalid_state (risk : ℚ) :
    compute (init risk) = Except.error SacError.invalidState ∧
    ∀ q : ℚ, compute (init risk) ≠ Except.ok q := by
  refine ⟨by simp [compute, init], ?_⟩
  intro q hq
  simp [compute, init] at hq

/-- C10 counterexample: `update` called with one confidence but two
correctness flags (mismatched lengths) does not fail at the `update` call —
it returns the grown state unchanged in meaning, and `compute` afterwards even
returns the normal value `1`.  This refutes the claim that mismatched-length
`update` fails with an InvalidState error. -/
theorem sac_update_mismatch_no_error_cex :
    update (init 1) [1/2] [true, false] =
      SacState.mk 1 [[1/2]] [[true, false]] ∧
    compute (update (init 1) [1/2] [true, false]) = Except.ok 1 := by
  constructor
  · rfl
  · decide

/-- C10 amended: `update` performs no validation at all — it always succeeds,
appending both sequences exactly as given.  A length mismatch can only surface
later: when strictly fewer correctness flags than confidences have been
accumulated, `compute` fails with an indexing error (numpy fancy indexing),
not at `update` time. -/
theorem sac_update_mismatch_amended (s : SacState) (c : List ℚ) (i : List Bool)
    (risk : ℚ) (c' : List ℚ) (hc' : c' ≠ []) :
    update s c i = SacState.mk s.risk (s.conf ++ [c]) (s.iscorrect ++ [i]) ∧
    compute (update (init risk) c' []) = Except.error SacError.indexError := by
  refine ⟨rfl, ?_⟩
  have hJc : joinedConf (update (init risk) c' []) = c' := by
    simp [joinedConf, update, init]
  have hJi : joinedIsc (update (init risk) c' []) = [] := by
    simp [joinedIsc, update, init]
  have hlt : (joinedIsc (update (init risk) c' [])).length <
      (joinedConf (update (init risk) c' [])).length := by
    rw [hJc, hJi]
    simpa using List.length_pos.mpr hc'
  have h1 : (update (init risk) c' []).conf ≠ [] := by simp [update, init]
  have h2 : (update (init risk) c' []).iscorrect ≠ [] := by simp [update, init]
  simp [compute, h1, h2, hlt]

/-- Witness for C10's amended claim at a concrete mismatched input. -/
theorem sac_update_mismatch_amended_witness :
    update (init 1) [2] [true] = SacState.mk 1 [[2]] [[true]] ∧
    compute (update (init 1) [2, 3] []) = Except.error SacError.indexError :=
  sac_update_mismatch_amended (init 1) [2] [true] 1 [2, 3] (by decide)

/-! ### The code's sort order is strictly descending on distinct confidences -/

lemma argsortQ_mem_lt (l : List ℚ) (i : ℕ) (hi : i ∈ argsortQ l) : i < l.length :=
  List.mem_range.mp
    ((List.perm_insertionSort (argRel l) (List.range l.length)).mem_iff.mp hi)

lemma argsortQ_nodup (l : List ℚ) : (argsortQ l).Nodup :=
  ((List.perm_insertionSort (argRel l) (List.range l.length)).nodup_iff).mpr
    (List.nodup_range _)

lemma argsortQ_pairwise_lt (l : List ℚ) (hl : l.Nodup) :
    List.Pairwise (fun i j => l.getD i 0 < l.getD j 0) (argsortQ l) := by
  have hs : List.Pairwise (argRel l) (argsortQ l) :=
    List.sorted_insertionSort (argRel l) (List.range l.length)
  have hnd : (argsortQ l).Nodup := argsortQ_nodup l
  refine (hs.and hnd).imp_of_mem ?_
  intro i j hi hj hij
  obtain ⟨hr, hne⟩ := hij
  rcases hr with hlt | ⟨heq, _⟩
  · exact hlt
  · exfalso
    apply hne
    have hi' := argsortQ_mem_lt l i hi
    have hj' := argsortQ_mem_lt l j hj
    rw [List.getD_eq_getElem l 0 hi', List.getD_eq_getElem l 0 hj'] at heq
    exact (hl.getElem_inj_iff).mp heq

lemma sortidx_pairwise_gt (s : SacState) (h : (joinedConf s).Nodup) :
    List.Pairwise (fun i j => (joinedConf s).getD j 0 < (joinedConf s).getD i 0)
      (sortidx s) := by
  unfold sortidx
  rw [List.pairwise_reverse]
  exact argsortQ_pairwise_lt (joinedConf s) h

lemma sortedConf_sorted_gt (s : SacState) (h : (joinedConf s).Nodup) :
    List.Sorted (· > ·) (sortedConf s) := by
  unfold sortedConf List.Sorted
  rw [List.pairwise_map]
  exact sortidx_pairwise_gt s h

/-- C1: with a risk in `(0,1]`, at least one update, records with
pairwise-distinct confidences and some prefix accuracy meeting the bound,
the code's ordering really is the strictly descending one, and `compute`
returns `kmax / N` where `kmax` is the largest prefix length in `1..N` whose
accuracy meets the risk; the value lies in `(0, 1]`. -/
theorem sac_compute_largest_valid_prefix (s : SacState)
    (hr0 : 0 < s.risk) (hr1 : s.risk ≤ 1)
    (hupd : s.conf ≠ [])
    (hlen : (joinedIsc s).length = (joinedConf s).length)
    (hnd : (joinedConf s).Nodup)
    (h : ∃ a ∈ sacAccs s, s.risk ≤ a) :
    List.Sorted (· > ·) (sortedConf s) ∧
    ∃ kmax : ℕ,
      compute s = Except.ok ((kmax : ℚ) / ((sortedIsc s).length : ℚ)) ∧
      1 ≤ kmax ∧ kmax ≤ (sortedIsc s).length ∧
      s.risk ≤ (sacAccs s).getD (kmax - 1) 0 ∧
      (∀ j, kmax < j → j ≤ (sortedIsc s).length → (sacAccs s).getD (j - 1) 0 < s.risk) ∧
      0 < (kmax : ℚ) / ((sortedIsc s).length : ℚ) ∧
      (kmax : ℚ) / ((sortedIsc s).length : ℚ) ≤ 1 := by
  refine ⟨sortedConf_sorted_gt s hnd, specMaxValidK (sacAccs s) s.risk, ?_, ?_⟩
  · exact sac_reversed_argmax_eq_direct_scan s hlen h
  · obtain ⟨h1, h2, h3⟩ := specMaxValidK_isMax s.risk (sacAccs s) h
    have hKle : specMaxValidK (sacAccs s) s.risk ≤ (sacAccs s).length :=
      specMaxValidK_le_length (sacAccs s) s.risk
    have hlenN : (sacAccs s).length = (sortedIsc s).length := by
      rw [length_sacAccs, length_sortedIsc]
    have hNpos : 0 < (sortedIsc s).length := by
      rcases h with ⟨a, ha, _⟩
      have := List.length_pos.mpr (List.ne_nil_of_mem ha)
      omega
    refine ⟨h1, by omega, h2, ?_, ?_, ?_⟩
    · intro j hj hj'
      exact h3 (j - 1) (by omega) (by omega)
    · refine div_pos ?_ ?_
      · exact_mod_cast h1
      · exact_mod_cast hNpos
    · rw [div_le_one (by exact_mod_cast hNpos)]
      have : specMaxValidK (sacAccs s) s.risk ≤ (sortedIsc s).length := by omega
      exact_mod_cast this

/-- Witness for C1: confidences `[4/5, 1/5]`, correctness `[T, T]`,
risk `3/4`; both prefixes have accuracy `1`, so `kmax = 2` and the value is
`1`. -/
theorem sac_compute_largest_valid_prefix_witness :
    List.Sorted (· > ·) (sortedConf (update (init (3/4)) [4/5, 1/5] [true, true])) ∧
    ∃ kmax : ℕ,
      compute (update (init (3/4)) [4/5, 1/5] [true, true]) =
        Except.ok ((kmax : ℚ) /
          ((sortedIsc (update (init (3/4)) [4/5, 1/5] [true, true])).length : ℚ)) ∧
      1 ≤ kmax ∧
      kmax ≤ (sortedIsc (update (init (3/4)) [4/5, 1/5] [true, true])).length ∧
      (3/4 : ℚ) ≤ (sacAccs (update (init (3/4)) [4/5, 1/5] [true, true])).getD (kmax - 1) 0 ∧
      (∀ j, kmax < j →
        j ≤ (sortedIsc (update (init (3/4)) [4/5, 1/5] [true, true])).length →
        (sacAccs (update (init (3/4)) [4/5, 1/5] [true, true])).getD (j - 1) 0 < (3/4 : ℚ)) ∧
      0 < (kmax : ℚ) /
        ((sortedIsc (update (init (3/4)) [4/5, 1/5] [true, true])).length : ℚ) ∧
      (kmax : ℚ) /
        ((sortedIsc (update (init (3/4)) [4/5, 1/5] [true, true])).length : ℚ) ≤ 1 :=
  sac_compute_largest_valid_prefix _ (by decide) (by decide) (by decide) (by decide)
    (by decide) (by decide)

/-! ### Claim C7: order sensitivity under confidence ties -/

/-- C7 counterexample: two single-update streams holding the same multiset of
records — confidence `1/2` twice, paired once correct-then-wrong and once
wrong-then-correct — produce different `compute` results (`0` versus `1/2`)
under risk `1`.  With exactly tied confidences the metric is therefore not
order-independent, refuting the claim's "including when some confidence values
are exactly equal". -/
theorem sac_order_dependence_ties_cex :
    ((joinedConf (update (init 1) [1/2, 1/2] [true, false])).zip
        (joinedIsc (update (init 1) [1/2, 1/2] [true, false]))).Perm
      ((joinedConf (update (init 1) [1/2, 1/2] [false, true])).zip
        (joinedIsc (update (init 1) [1/2, 1/2] [false, true]))) ∧
    compute (update (init 1) [1/2, 1/2] [true, false]) = Except.ok 0 ∧
    compute (update (init 1) [1/2, 1/2] [false, true]) = Except.ok (1/2) ∧
    compute (update (init 1) [1/2, 1/2] [true, false]) ≠
      compute (update (init 1) [1/2, 1/2] [false, true]) :=
  ⟨by decide, by decide, by decide, by decide⟩

lemma range_map_getD_zip :
    ∀ (xs : List ℚ) (ys : List Bool), xs.length = ys.length →
      (List.range xs.length).map (fun i => (xs.getD i 0, ys.getD i false)) = xs.zip ys
  | [], [], _ => rfl
  | [], _ :: _, h => by simp at h
  | _ :: _, [], h => by simp at h
  | x :: xs, y :: ys, h => by
    have h' : xs.length = ys.length := by simpa using h
    simp only [List.length_cons, List.range_succ_eq_map, List.map_cons, List.map_map,
      List.zip_cons_cons, List.getD_cons_zero]
    congr 1
    rw [← range_map_getD_zip xs ys h']
    apply List.map_congr_left
    intro i hi
    simp [Function.comp]

lemma sortidx_perm_range (s : SacState) :
    (sortidx s).Perm (List.range (joinedConf s).length) := by
  unfold sortidx
  exact (List.reverse_perm _).trans
    (List.perm_insertionSort (argRel (joinedConf s)) _)

lemma sortedPairs_perm_zip (s : SacState)
    (hlen : (joinedIsc s).length = (joinedConf s).length) :
    (sortedPairs s).Perm ((joinedConf s).zip (joinedIsc s)) := by
  have h1 := (sortidx_perm_range s).map
    (fun i => ((joinedConf s).getD i 0, (joinedIsc s).getD i false))
  rwa [range_map_getD_zip (joinedConf s) (joinedIsc s) hlen.symm] at h1

lemma sortedPairs_pairwise (s : SacState) (h : (joinedConf s).Nodup) :
    List.Pairwise (fun p q : ℚ × Bool => q.1 < p.1) (sortedPairs s) := by
  unfold sortedPairs
  rw [List.pairwise_map]
  exact sortidx_pairwise_gt s h

lemma sortedIsc_eq_map_snd (s : SacState) :
    sortedIsc s = (sortedPairs s).map Prod.snd := by
  unfold sortedIsc sortedPairs
  rw [List.map_map]
  rfl

/-- C7 amended: the multiset of records determines `compute` — independent of
the order the records arrive in and of how they are split into `update`
calls — provided the accumulated confidences are pairwise distinct.  (The
counterexample shows the proviso is necessary: with exact ties the withheld
sort order is visible in the result.) -/
theorem sac_compute_perm_invariant_of_nodup (s₁ s₂ : SacState)
    (hrisk : s₁.risk = s₂.risk)
    (hu₁ : s₁.conf ≠ []) (hu₁' : s₁.iscorrect ≠ [])
    (hu₂ : s₂.conf ≠ []) (hu₂' : s₂.iscorrect ≠ [])
    (hl₁ : (joinedIsc s₁).length = (joinedConf s₁).length)
    (hl₂ : (joinedIsc s₂).length = (joinedConf s₂).length)
    (hnd : (joinedConf s₁).Nodup)
    (hperm : ((joinedConf s₁).zip (joinedIsc s₁)).Perm
      ((joinedConf s₂).zip (joinedIsc s₂))) :
    compute s₁ = compute s₂ := by
  have hconfperm : (joinedConf s₁).Perm (joinedConf s₂) := by
    have h1 := hperm.map Prod.fst
    rwa [List.map_fst_zip _ _ (le_of_eq hl₁.symm),
      List.map_fst_zip _ _ (le_of_eq hl₂.symm)] at h1
  have hnd₂ : (joinedConf s₂).Nodup := hconfperm.nodup_iff.mp hnd
  have hsp : sortedPairs s₁ = sortedPairs s₂ := by
    haveI : IsAntisymm (ℚ × Bool) (fun p q => q.1 < p.1) :=
      ⟨fun a b h1 h2 => absurd (h1.trans h2) (lt_irrefl _)⟩
    refine List.eq_of_perm_of_sorted ?_
      (sortedPairs_pairwise s₁ hnd) (sortedPairs_pairwise s₂ hnd₂)
    exact (sortedPairs_perm_zip s₁ hl₁).trans
      (hperm.trans (sortedPairs_perm_zip s₂ hl₂).symm)
  have hisc : sortedIsc s₁ = sortedIsc s₂ := by
    rw [sortedIsc_eq_map_snd, sortedIsc_eq_map_snd, hsp]
  rw [compute_eq_core s₁ hu₁ hu₁' (by omega), compute_eq_core s₂ hu₂ hu₂' (by omega),
    hrisk, hisc]

/-- Witness for C7's amended claim: the records `(1/3, T)` and `(2/3, F)` fed
in opposite orders and with different batch splits give equal results. -/
theorem sac_compute_perm_invariant_of_nodup_witness :
    compute (update (init 1) [1/3, 2/3] [true, false]) =
      compute (update (update (init 1) [2/3] [false]) [1/3] [true]) :=
  sac_compute_perm_invariant_of_nodup _ _ (by decide) (by decide) (by decide)
    (by decide) (by decide) (by decide) (by decide) (by decide) (by decide)

/-! ### Facts about the linear-interpolation percentile -/

lemma percentileQ_eq (l : List ℚ) (q : ℚ) :
    percentileQ l q =
      (sortedAsc l).getD (pctIdx l q) 0 +
        (pctPos l q - (pctIdx l q : ℚ)) *
          ((sortedAsc l).getD (pctIdx l q + 1) ((sortedAsc l).getD (pctIdx l q) 0) -
            (sortedAsc l).getD (pctIdx l q) 0) := rfl

lemma sortedAsc_sorted (l : List ℚ) : List.Sorted (· ≤ ·) (sortedAsc l) :=
  List.sorted_insertionSort _ _

lemma sortedAsc_perm (l : List ℚ) : (sortedAsc l).Perm l :=
  List.perm_insertionSort _ _

lemma length_sortedAsc (l : List ℚ) : (sortedAsc l).length = l.length :=
  (sortedAsc_perm l).length_eq

lemma sorted_getD_mono {s : List ℚ} (hs : List.Sorted (· ≤ ·) s) {i j : ℕ}
    (hij : i ≤ j) (hj : j < s.length) : s.getD i 0 ≤ s.getD j 0 := by
  rcases eq_or_lt_of_le hij with rfl | hlt
  · exact le_refl _
  · have hi : i < s.length := lt_trans hlt hj
    rw [List.getD_eq_getElem _ _ hi, List.getD_eq_getElem _ _ hj]
    exact List.pairwise_iff_getElem.mp hs i j hi hj hlt

lemma pctPos_nonneg (l : List ℚ) (q : ℚ) (hl : 1 ≤ l.length) (hq0 : 0 ≤ q) :
    0 ≤ pctPos l q := by
  unfold pctPos
  apply mul_nonneg (div_nonneg hq0 (by norm_num))
  rw [length_sortedAsc]
  have : (1 : ℚ) ≤ (l.length : ℚ) := by exact_mod_cast hl
  linarith

lemma pctPos_le (l : List ℚ) (q : ℚ) (hl : 1 ≤ l.length) (hq1 : q ≤ 100) :
    pctPos l q ≤ ((sortedAsc l).length : ℚ) - 1 := by
  unfold pctPos
  have h2 : (0 : ℚ) ≤ ((sortedAsc l).length : ℚ) - 1 := by
    rw [length_sortedAsc]
    have : (1 : ℚ) ≤ (l.length : ℚ) := by exact_mod_cast hl
    linarith
  calc q / 100 * (((sortedAsc l).length : ℚ) - 1)
      ≤ 1 * (((sortedAsc l).length : ℚ) - 1) :=
        mul_le_mul_of_nonneg_right (by rw [div_le_one (by norm_num)]; exact hq1) h2
    _ = ((sortedAsc l).length : ℚ) - 1 := one_mul _

lemma pctPos_mono (l : List ℚ) (q₁ q₂ : ℚ) (hl : 1 ≤ l.length) (h12 : q₁ ≤ q₂) :
    pctPos l q₁ ≤ pctPos l q₂ := by
  unfold pctPos
  have h2 : (0 : ℚ) ≤ ((sortedAsc l).length : ℚ) - 1 := by
    rw [length_sortedAsc]
    have : (1 : ℚ) ≤ (l.length : ℚ) := by exact_mod_cast hl
    linarith
  exact mul_le_mul_of_nonneg_right (by apply div_le_div_of_nonneg_right h12 <;> norm_num) h2

lemma pctIdx_le (l : List ℚ) (q : ℚ) (hl : 1 ≤ l.length) (hq1 : q ≤ 100) :
    pctIdx l q ≤ l.length - 1 := by
  unfold pctIdx
  rw [Int.toNat_le]
  have hcast : ((sortedAsc l).length : ℚ) - 1 = ((l.length - 1 : ℕ) : ℚ) := by
    rw [length_sortedAsc, Nat.cast_sub hl, Nat.cast_one]
  have h1 : ⌊pctPos l q⌋ ≤ ⌊((l.length - 1 : ℕ) : ℚ)⌋ := by
    apply Int.floor_le_floor
    rw [← hcast]
    exact pctPos_le l q hl hq1
  rwa [Int.floor_natCast] at h1

lemma pctIdx_lt_length (l : List ℚ) (q : ℚ) (hl : 1 ≤ l.length) (hq1 : q ≤ 100) :
    pctIdx l q < (sortedAsc l).length := by
  have h1 := pctIdx_le l q hl hq1
  have h2 := length_sortedAsc l
  omega

lemma pctIdx_cast_le (l : List ℚ) (q : ℚ) (hl : 1 ≤ l.length) (hq0 : 0 ≤ q) :
    (pctIdx l q : ℚ) ≤ pctPos l q := by
  unfold pctIdx
  have h0 : 0 ≤ ⌊pctPos l q⌋ := Int.floor_nonneg.mpr (pctPos_nonneg l q hl hq0)
  have hcast : (((⌊pctPos l q⌋).toNat : ℕ) : ℚ) = ((⌊pctPos l q⌋ : ℤ) : ℚ) := by
    exact_mod_cast congrArg (fun z : ℤ => (z : ℚ)) (Int.toNat_of_nonneg h0)
  rw [hcast]
  exact Int.floor_le _

lemma pctPos_sub_lt_one (l : List ℚ) (q : ℚ) (hl : 1 ≤ l.length) (hq0 : 0 ≤ q) :
    pctPos l q - (pctIdx l q : ℚ) < 1 := by
  unfold pctIdx
  have h0 : 0 ≤ ⌊pctPos l q⌋ := Int.floor_nonneg.mpr (pctPos_nonneg l q hl hq0)
  have hcast : (((⌊pctPos l q⌋).toNat : ℕ) : ℚ) = ((⌊pctPos l q⌋ : ℤ) : ℚ) := by
    exact_mod_cast congrArg (fun z : ℤ => (z : ℚ)) (Int.toNat_of_nonneg h0)
  rw [hcast]
  have := Int.lt_floor_add_one (pctPos l q)
  linarith

lemma interp_diff_nonneg (l : List ℚ) (q : ℚ) (hl : 1 ≤ l.length) (hq1 : q ≤ 100) :
    0 ≤ (sortedAsc l).getD (pctIdx l q + 1) ((sortedAsc l).getD (pctIdx l q) 0) -
      (sortedAsc l).getD (pctIdx l q) 0 := by
  by_cases hc : pctIdx l q + 1 < (sortedAsc l).length
  · have hi : pctIdx l q < (sortedAsc l).length := by omega
    rw [List.getD_eq_getElem _ _ hc, List.getD_eq_getElem _ _ hi, sub_nonneg]
    exact List.pairwise_iff_getElem.mp (sortedAsc_sorted l) _ _ hi hc (Nat.lt_succ_self _)
  · rw [List.getD_eq_default _ _ (by omega)]
    simp

lemma getD_le_percentileQ (l : List ℚ) (q : ℚ) (hl : 1 ≤ l.length)
    (hq0 : 0 ≤ q) (hq1 : q ≤ 100) :
    (sortedAsc l).getD (pctIdx l q) 0 ≤ percentileQ l q := by
  rw [percentileQ_eq]
  have h1 : 0 ≤ pctPos l q - (pctIdx l q : ℚ) :=
    sub_nonneg.mpr (pctIdx_cast_le l q hl hq0)
  have h2 := interp_diff_nonneg l q hl hq1
  nlinarith

lemma percentileQ_le_getD_succ (l : List ℚ) (q : ℚ) (hl : 1 ≤ l.length)
    (hq0 : 0 ≤ q) (hq1 : q ≤ 100) (hc : pctIdx l q + 1 < (sortedAsc l).length) :
    percentileQ l q ≤ (sortedAsc l).getD (pctIdx l q + 1) 0 := by
  rw [percentileQ_eq]
  have hi : pctIdx l q < (sortedAsc l).length := by omega
  rw [List.getD_eq_getElem (sortedAsc l) ((sortedAsc l).getD (pctIdx l q) 0) hc,
    List.getD_eq_getElem (sortedAsc l) (0 : ℚ) hc,
    List.getD_eq_getElem (sortedAsc l) (0 : ℚ) hi]
  have hf1 : pctPos l q - (pctIdx l q : ℚ) ≤ 1 :=
    le_of_lt (pctPos_sub_lt_one l q hl hq0)
  have hf0 : 0 ≤ pctPos l q - (pctIdx l q : ℚ) :=
    sub_nonneg.mpr (pctIdx_cast_le l q hl hq0)
  have hd : (sortedAsc l)[pctIdx l q] ≤ (sortedAsc l)[pctIdx l q + 1] :=
    List.pairwise_iff_getElem.mp (sortedAsc_sorted l) _ _ hi hc (Nat.lt_succ_self _)
  nlinarith

lemma percentileQ_le_getD_last (l : List ℚ) (q : ℚ) (hl : 1 ≤ l.length)
    (hq0 : 0 ≤ q) (hq1 : q ≤ 100) :
    percentileQ l q ≤ (sortedAsc l).getD ((sortedAsc l).length - 1) 0 := by
  have hlen := length_sortedAsc l
  by_cases hc : pctIdx l q + 1 < (sortedAsc l).length
  · calc percentileQ l q ≤ (sortedAsc l).getD (pctIdx l q + 1) 0 :=
        percentileQ_le_getD_succ l q hl hq0 hq1 hc
      _ ≤ (sortedAsc l).getD ((sortedAsc l).length - 1) 0 :=
        sorted_getD_mono (sortedAsc_sorted l) (by omega) (by omega)
  · rw [percentileQ_eq, List.getD_eq_default _ _ (by omega : (sortedAsc l).length ≤ pctIdx l q + 1)]
    have hieq : pctIdx l q = (sortedAsc l).length - 1 := by
      have h1 := pctIdx_le l q hl hq1
      omega
    rw [hieq]
    simp

lemma percentileQ_le_max (l : List ℚ) (q : ℚ) (hl : 1 ≤ l.length)
    (hq0 : 0 ≤ q) (hq1 : q ≤ 100) :
    ∃ x ∈ l, percentileQ l q ≤ x := by
  have hlen := length_sortedAsc l
  have hn1 : (sortedAsc l).length - 1 < (sortedAsc l).length := by omega
  refine ⟨(sortedAsc l).getD ((sortedAsc l).length - 1) 0, ?_, ?_⟩
  · apply (sortedAsc_perm l).subset
    rw [List.getD_eq_getElem _ _ hn1]
    exact List.getElem_mem _
  · exact percentileQ_le_getD_last l q hl hq0 hq1

lemma percentileQ_mono (l : List ℚ) (q₁ q₂ : ℚ) (hl : 1 ≤ l.length)
    (h0 : 0 ≤ q₁) (h12 : q₁ ≤ q₂) (h100 : q₂ ≤ 100) :
    percentileQ l q₁ ≤ percentileQ l q₂ := by
  have h0' : 0 ≤ q₂ := le_trans h0 h12
  have h100' : q₁ ≤ 100 := le_trans h12 h100
  have hposm := pctPos_mono l q₁ q₂ hl h12
  have hij : pctIdx l q₁ ≤ pctIdx l q₂ := by
    unfold pctIdx
    exact Int.toNat_le_toNat (Int.floor_le_floor hposm)
  rcases eq_or_lt_of_le hij with heq | hlt
  · rw [percentileQ_eq, percentileQ_eq, ← heq]
    have hd := interp_diff_nonneg l q₁ hl h100'
    have hfr : pctPos l q₁ - (pctIdx l q₁ : ℚ) ≤ pctPos l q₂ - (pctIdx l q₁ : ℚ) := by
      linarith
    exact add_le_add_left (mul_le_mul_of_nonneg_right hfr hd) _
  · have hi2lt := pctIdx_lt_length l q₂ hl h100
    have h1 : percentileQ l q₁ ≤ (sortedAsc l).getD (pctIdx l q₁ + 1) 0 :=
      percentileQ_le_getD_succ l q₁ hl h0 h100' (by omega)
    have h2 : (sortedAsc l).getD (pctIdx l q₁ + 1) 0 ≤ (sortedAsc l).getD (pctIdx l q₂) 0 :=
      sorted_getD_mono (sortedAsc_sorted l) (by omega) hi2lt
    have h3 : (sortedAsc l).getD (pctIdx l q₂) 0 ≤ percentileQ l q₂ :=
      getD_le_percentileQ l q₂ hl h0' h100
    linarith

/-! ### Calibrator claims (C4, C6, C8) -/

lemma calc_threshold_div100 (val : List ℚ) (c : ℚ) :
    calc_threshold val (c / 100) = percentileQ val (100 - c) := by
  unfold calc_threshold
  congr 1
  field_simp

lemma count_true_map (l : List ℚ) (f : ℚ → Bool) :
    (l.map f).count true = l.countP f := by
  induction l with
  | nil => rfl
  | cons a l ih =>
    by_cases hf : f a = true
    · simp [List.count_cons, List.countP_cons, hf, ih]
    · simp [List.count_cons, List.countP_cons, hf, ih]

lemma selMask_count_pos (score : List ℚ) (c : ℚ) (hN : 1 ≤ score.length)
    (hc0 : 0 < c) (hc1 : c ≤ 100) : 0 < (selMask score c).count true := by
  unfold selMask
  rw [count_true_map, List.countP_pos_iff]
  have hlenneg : (score.map fun x => -x).length = score.length := List.length_map _ _
  obtain ⟨x, hx, hle⟩ := percentileQ_le_max (score.map fun x => -x)
    (100 - c) (by omega) (by linarith) (by linarith)
  refine ⟨x, hx, ?_⟩
  rw [calc_threshold_div100]
  simpa using hle

lemma calibStep_ok (score : List ℚ) (correct : List Bool) (c : ℚ)
    (hlen : correct.length = score.length) (hN : 1 ≤ score.length)
    (hc0 : 0 < c) (hc1 : c ≤ 100) :
    calibStep (score.map fun x => -x) correct c =
      Except.ok
        (((selMask score c).count true : ℚ) / (score.length : ℚ),
          ((((correct.zip (selMask score c)).filterMap fun p =>
                if p.2 then some p.1 else none).count true : ℚ) /
            ((selMask score c).count true : ℚ))) := by
  have hne : score.map (fun x => -x) ≠ [] := by
    intro h
    have h2 : (score.map fun x => -x).length = 0 := by rw [h]; rfl
    rw [List.length_map] at h2
    omega
  have hmask : (selMask score c).length = score.length := by
    unfold selMask
    simp
  have hpos : 0 < (selMask score c).count true := selMask_count_pos score c hN hc0 hc1
  show (if score.map (fun x => -x) = [] then _ else _) = _
  rw [if_neg hne]
  show (if correct.length ≠ (selMask score c).length then _ else _) = _
  rw [if_neg (fun hne2 => hne2 (hlen.trans hmask.symm))]
  show (if (selMask score c).count true = 0 then _ else _) = _
  rw [if_neg (Nat.pos_iff_ne_zero.mp hpos)]
  rw [hlen]
  rfl

lemma selMask_eq_spec_mask (score : List ℚ) (c : ℚ) :
    selMask score c = (score.map fun x => -x).map
      fun x => decide (percentileQ (score.map fun x => -x) (100 - c) ≤ x) := by
  unfold selMask
  rw [calc_threshold_div100]

lemma bisectionLoop_ok (score : List ℚ) (correct : List Bool)
    (hlen : correct.length = score.length) (hN : 1 ≤ score.length) :
    ∀ (cov : List ℚ), (∀ c ∈ cov, 0 < c ∧ c ≤ 100) →
      bisectionLoop (score.map fun x => -x) correct cov =
        Except.ok (specCalibrate score correct cov)
  | [], _ => rfl
  | c :: cs, h => by
    obtain ⟨hc0, hc1⟩ := h c (List.mem_cons_self _ _)
    have hstep := calibStep_ok score correct c hlen hN hc0 hc1
    rw [selMask_eq_spec_mask] at hstep
    have hrest := bisectionLoop_ok score correct hlen hN cs
      (fun x hx => h x (List.mem_cons_of_mem _ hx))
    simp only [bisectionLoop, hstep, hrest, specCalibrate, List.map_cons]

/-- C4: on any non-empty paired input, for requested coverages in `(0,100]`,
`bisection_method` succeeds and emits, in request order, exactly the pairs
described by the spec: threshold the negated scores at the
linear-interpolation percentile of rank `100 - c`, select by
`negated_score >= threshold`, and report `(nSelected / N, accuracy among the
selected)`. -/
theorem calib_emits_percentile_report (coverages scores : List ℚ)
    (correct : List Bool)
    (hlen : correct.length = scores.length) (hN : 1 ≤ scores.length)
    (hcov : ∀ c ∈ coverages, 0 < c ∧ c ≤ 100) :
    bisection_method coverages scores correct =
      Except.ok (specCalibrate scores correct coverages) := by
  unfold bisection_method
  exact bisectionLoop_ok scores correct hlen hN coverages hcov

/-- Witness for C4: scores `[1,2,3,4]` (higher = reject first), correctness
`[T,T,F,T]`, coverages `[100, 50]`. -/
theorem calib_emits_percentile_report_witness :
    bisection_method [100, 50] [1, 2, 3, 4] [true, true, false, true] =
      Except.ok (specCalibrate [1, 2, 3, 4] [true, true, false, true] [100, 50]) :=
  calib_emits_percentile_report [100, 50] [1, 2, 3, 4] [true, true, false, true]
    (by decide) (by decide) (by decide)

/-- C8: with at least one (score, correct) pair and every requested coverage
in `(0,100]`, every selection mask is non-empty (the percentile threshold
never exceeds the maximal negated score) and the whole calibrator run
succeeds — the division by `nSelected` never divides by zero and the error
branch is unreachable. -/
theorem calib_mask_nonempty_no_division_by_zero (coverages scores : List ℚ)
    (correct : List Bool)
    (hlen : correct.length = scores.length) (hN : 1 ≤ scores.length)
    (hcov : ∀ c ∈ coverages, 0 < c ∧ c ≤ 100) :
    (∀ c ∈ coverages, 0 < (selMask scores c).count true) ∧
    ∃ out, bisection_method coverages scores correct = Except.ok out := by
  refine ⟨fun c hc => selMask_count_pos scores c hN (hcov c hc).1 (hcov c hc).2,
    specCalibrate scores correct coverages, ?_⟩
  unfold bisection_method
  exact bisectionLoop_ok scores correct hlen hN coverages hcov

/-- Witness for C8: a two-example run at full coverage. -/
theorem calib_mask_nonempty_no_division_by_zero_witness :
    (∀ c ∈ ([100] : List ℚ), 0 < (selMask [2, 5] c).count true) ∧
    ∃ out, bisection_method [100] [2, 5] [true, false] = Except.ok out :=
  calib_mask_nonempty_no_division_by_zero [100] [2, 5] [true, false]
    (by decide) (by decide) (by decide)

/-- C6: for a fixed non-empty score list with no score tied with either
threshold, and coverages `c₁ < c₂` in `(0,100]`, every example selected at
coverage `c₁` is also selected at coverage `c₂` — the percentile threshold is
antitone in the requested coverage. -/
theorem calib_selection_monotone_in_coverage (scores : List ℚ) (c₁ c₂ : ℚ)
    (hN : 1 ≤ scores.length)
    (hc₁ : 0 < c₁) (hc₁₂ : c₁ < c₂) (hc₂ : c₂ ≤ 100)
    (hties : ∀ x ∈ scores.map fun s => -s,
      x ≠ calc_threshold (scores.map fun s => -s) (c₁ / 100) ∧
      x ≠ calc_threshold (scores.map fun s => -s) (c₂ / 100)) :
    ∀ i, (selMask scores c₁).getD i false = true →
      (selMask scores c₂).getD i false = true := by
  intro i hi
  have hlenneg : (scores.map fun x => -x).length = scores.length := List.length_map _ _
  have hthr : calc_threshold (scores.map fun x => -x) (c₂ / 100) ≤
      calc_threshold (scores.map fun x => -x) (c₁ / 100) := by
    rw [calc_threshold_div100, calc_threshold_div100]
    exact percentileQ_mono _ _ _ (by omega) (by linarith) (by linarith) (by linarith)
  by_cases hib : i < scores.length
  · have hib₁ : i < ((scores.map fun x => -x).map fun x =>
        decide (calc_threshold (scores.map fun x => -x) (c₁ / 100) ≤ x)).length := by
      simp [hib]
    have hib₂ : i < ((scores.map fun x => -x).map fun x =>
        decide (calc_threshold (scores.map fun x => -x) (c₂ / 100) ≤ x)).length := by
      simp [hib]
    unfold selMask at hi ⊢
    rw [List.getD_eq_getElem _ _ hib₁, List.getElem_map, decide_eq_true_eq] at hi
    rw [List.getD_eq_getElem _ _ hib₂, List.getElem_map, decide_eq_true_eq]
    exact le_trans hthr hi
  · exfalso
    unfold selMask at hi
    rw [List.getD_eq_default] at hi
    · exact Bool.false_ne_true hi
    · simp
      omega

/-- Witness for C6: scores `[1,2,3,4]`, coverages `50 < 90`; the thresholds
are `-5/2` and `-37/10`, tied with no negated score; example `0` is selected
at coverage `50` and stays selected at coverage `90`. -/
theorem calib_selection_monotone_in_coverage_witness :
    (selMask [1, 2, 3, 4] 50).getD 0 false = true ∧
    (selMask [1, 2, 3, 4] 90).getD 0 false = true :=
  ⟨by decide,
    calib_selection_monotone_in_coverage [1, 2, 3, 4] 50 90
      (by decide) (by decide) (by decide) (by decide) (by decide) 0 (by decide)⟩

end SelClass
